import Mathlib

/-!
Verification development for the FantasyFootball draft-aid repository.

The Python sources are shallowly embedded as Lean functions:

* `strip_suffix`       — `strip_suffix` from `main.py` / `Interface.py`
                         (regex `\s+(Jr\.|Sr\.|II|III)$` removal plus `strip()`)
* `fuzzy_match_names`  — `fuzzy_match_names` from `main.py` /
                         `Ranked_List_Generator.py`, with the external
                         rapidfuzz `token_sort_ratio` scorer modelled by its
                         documented semantics (whitespace tokenisation, token
                         sort, InDel ratio scaled to 0..100)
* `clean_df` and friends — the order/deduplicate/clean step
* `join_to_get_ranked_order` — the fuzzy left join
* `get_updated_player_data`  — the daily-cache fetch, over an explicit
                         environment recording files and the HTTP response
* `remove_players_callback` / `undo_removal_callback` — the Streamlit
                         draft-board session operations from `Interface.py`

Strings are modelled over their character lists; the Python whitespace class,
`str.lower` and the regex are modelled on the ASCII range that the data uses.
Pandas indices are modelled explicitly (`Row.idx`), since `undo` restores
order via `sort_index()`.  Pandas sorts are modelled with a deterministic
comparison sort; all theorems that depend on tie order only use inputs with
distinct keys, where every comparison sort agrees.
-/

/-- Python `\s` / `str.strip()` whitespace, on the ASCII range. -/
def isPySpace (c : Char) : Bool :=
  c = ' ' || c = '\t' || c = '\n' || c = '\r' || c = '\x0b' || c = '\x0c'

/-- Python `str.strip()` on a character list: drop whitespace at both ends. -/
def py_strip (cs : List Char) : List Char :=
  ((cs.dropWhile isPySpace).reverse.dropWhile isPySpace).reverse

/-- Python `str.strip()` as a `String` transformer. -/
def pyStripS (s : String) : String := ⟨py_strip s.data⟩

/-- Python `str.lower()` on the ASCII range. -/
def strLower (s : String) : String := ⟨s.data.map Char.toLower⟩

/-- One attempted match of the regex alternative `rsuf.reverse` at the end of
the string, on the reversed character list: the reversed string must start
with `rsuf` followed by at least one whitespace character (`\s+` in the
pattern).  Returns the reversed remainder (whitespace included; the trailing
`strip()` removes it). -/
def tryRevSuffix (rsuf : List Char) (rcs : List Char) : Option (List Char) :=
  if rcs.take rsuf.length = rsuf then
    match rcs.drop rsuf.length with
    | [] => none
    | c :: rest => if isPySpace c then some (c :: rest) else none
  else none

/-- Matching `\s+(Jr\.|Sr\.|II|III)` at the end of the string, given the
reversed character list.  `III` is tried before `II`, as the regex engine's
backtracking does when the string ends in `III`. -/
def matchRev (rcs : List Char) : Option (List Char) :=
  (tryRevSuffix ['.', 'r', 'J'] rcs).orElse fun _ =>
  (tryRevSuffix ['.', 'r', 'S'] rcs).orElse fun _ =>
  (tryRevSuffix ['I', 'I', 'I'] rcs).orElse fun _ =>
  tryRevSuffix ['I', 'I'] rcs

/-- The function `strip_suffix` from `main.py` lines 34-38 (identical in
`Ranked_List_Generator.py` and `Interface.py`):
`pd.isna(name) → ""`, else `re.sub(r'\s+(Jr\.|Sr\.|II|III)$', '', name).strip()`.
A missing (`NaN`) cell is `none`.  Python's `$` also matches just before one
trailing newline, so the match is sought at the end of the string minus a
final `'\n'`. -/
def strip_suffix (name : Option String) : String :=
  match name with
  | none => ""
  | some s =>
    let cs := s.data
    let hasNl : Bool := cs.getLast? = some '\n'
    let body := if hasNl then cs.dropLast else cs
    match matchRev body.reverse with
    | some rrest => ⟨py_strip (rrest.reverse ++ (if hasNl then ['\n'] else []))⟩
    | none => ⟨py_strip cs⟩

/-- The function `strip_suffix` applied to a present string (the call sites in
`remove_players_callback` apply it to parsed `str` values). -/
def stripSuffixS (s : String) : String := strip_suffix (some s)

/-- The four generational suffixes of the regex. -/
def genSuffixes : List String := ["Jr.", "Sr.", "II", "III"]

theorem dropWhile_append_of_all {p : Char → Bool} {a b : List Char}
    (h : ∀ c ∈ a, p c = true) :
    (a ++ b).dropWhile p = b.dropWhile p := by
  induction a with
  | nil => rfl
  | cons x xs ih =>
    have hx : p x = true := h x (List.mem_cons_self _ _)
    simp only [List.cons_append, List.dropWhile_cons, hx, if_true]
    exact ih fun c hc => h c (List.mem_cons_of_mem _ hc)

theorem py_strip_append_ws {t w : List Char}
    (hw : ∀ c ∈ w, isPySpace c = true) :
    py_strip (t ++ w) = py_strip t := by
  induction t with
  | nil =>
    simp only [List.nil_append, py_strip]
    have h1 : w.dropWhile isPySpace = [] := by
      rw [show w = w ++ [] by simp, dropWhile_append_of_all hw]
      rfl
    rw [h1]
    rfl
  | cons x xs ih =>
    by_cases hx : isPySpace x = true
    · simp only [py_strip, List.cons_append, List.dropWhile_cons, hx, if_true] at *
      exact ih
    · have hx' : isPySpace x = false := by simpa using hx
      simp only [py_strip, List.cons_append, List.dropWhile_cons, hx',
        Bool.false_eq_true, if_false]
      rw [show (x :: (xs ++ w)).reverse = w.reverse ++ (x :: xs).reverse by simp]
      rw [dropWhile_append_of_all (by simpa using hw)]


theorem tryRevSuffix_some {rsuf rcs r : List Char}
    (h : tryRevSuffix rsuf rcs = some r) :
    ∃ c rest, isPySpace c = true ∧ rcs = rsuf ++ c :: rest ∧ r = c :: rest := by
  unfold tryRevSuffix at h
  split at h
  · rename_i ht
    split at h
    · exact absurd h (by simp)
    · rename_i c rest hd
      split at h
      · rename_i hc
        refine ⟨c, rest, hc, ?_, by injection h with h; exact h.symm⟩
        conv_lhs => rw [← List.take_append_drop rsuf.length rcs]
        rw [ht, hd]
      · exact absurd h (by simp)
  · exact absurd h (by simp)

theorem matchRev_some_decomp {rcs r : List Char}
    (h : matchRev rcs = some r) :
    ∃ u : String, u ∈ genSuffixes ∧
      ∃ c rest, isPySpace c = true ∧ rcs = u.data.reverse ++ c :: rest ∧
        r = c :: rest := by
  unfold matchRev at h
  rcases h1 : tryRevSuffix ['.', 'r', 'J'] rcs with _ | r1
  · rw [h1] at h
    rcases h2 : tryRevSuffix ['.', 'r', 'S'] rcs with _ | r2
    · rw [h2] at h
      rcases h3 : tryRevSuffix ['I', 'I', 'I'] rcs with _ | r3
      · rw [h3] at h
        have h4 : tryRevSuffix ['I', 'I'] rcs = some r := h
        exact ⟨"II", by simp [genSuffixes], tryRevSuffix_some h4⟩
      · rw [h3] at h
        have h4 : some r3 = some r := h
        cases h4
        exact ⟨"III", by simp [genSuffixes], tryRevSuffix_some h3⟩
    · rw [h2] at h
      have h4 : some r2 = some r := h
      cases h4
      exact ⟨"Sr.", by simp [genSuffixes], tryRevSuffix_some h2⟩
  · rw [h1] at h
    have h4 : some r1 = some r := h
    cases h4
    exact ⟨"Jr.", by simp [genSuffixes], tryRevSuffix_some h1⟩

theorem strip_suffix_eq_of_match {s : String} {r : List Char}
    (h1 : s.data.getLast? ≠ some '\n')
    (h2 : matchRev s.data.reverse = some r) :
    strip_suffix (some s) = ⟨py_strip r.reverse⟩ := by
  unfold strip_suffix
  have hb : decide (s.data.getLast? = some '\n') = false := by
    simpa using h1
  simp only [hb, if_false, Bool.false_eq_true, h2, List.append_nil]

theorem strip_suffix_eq_of_no_match {s : String}
    (h1 : s.data.getLast? ≠ some '\n')
    (h2 : matchRev s.data.reverse = none) :
    strip_suffix (some s) = pyStripS s := by
  unfold strip_suffix
  have hb : decide (s.data.getLast? = some '\n') = false := by
    simpa using h1
  simp only [hb, if_false, Bool.false_eq_true, h2]
  rfl

theorem strip_suffix_pos (t w u : String) (hu : u ∈ genSuffixes)
    (hw : w.data ≠ []) (hws : ∀ c ∈ w.data, isPySpace c = true) :
    stripSuffixS (t ++ w ++ u) = pyStripS t := by
  obtain ⟨c, wr, hwrev⟩ := List.exists_cons_of_ne_nil
    (show w.data.reverse ≠ [] by simpa using hw)
  have hc : isPySpace c = true := hws c (by
    rw [← List.mem_reverse, hwrev]; exact List.mem_cons_self _ _)
  have hdata : (t ++ w ++ u).data = t.data ++ w.data ++ u.data := rfl
  have hwd : wr.reverse ++ [c] = w.data := by
    rw [show wr.reverse ++ [c] = (c :: wr).reverse by simp, ← hwrev,
      List.reverse_reverse]
  have hfin : (⟨py_strip (t.data ++ w.data)⟩ : String) = pyStripS t :=
    congrArg String.mk (py_strip_append_ws hws)
  have hrevarg : ∀ rest : List Char, rest = wr ++ t.data.reverse →
      (⟨py_strip ((c :: rest).reverse)⟩ : String) = pyStripS t := by
    intro rest hrest
    subst hrest
    rw [show (c :: (wr ++ t.data.reverse)).reverse
          = t.data ++ (wr.reverse ++ [c]) by simp, hwd, hfin]
  have hci : c ≠ 'I' := by
    intro h; rw [h] at hc; exact absurd hc (by decide)
  simp only [genSuffixes, List.mem_cons, List.not_mem_nil, or_false] at hu
  rcases hu with hu | hu | hu | hu <;> subst hu
  · have hlast : (t ++ w ++ "Jr.").data.getLast? = some '.' := by
      rw [hdata, List.append_assoc, List.getLast?_append,
        List.getLast?_append]
      rfl
    have hrev : (t ++ w ++ "Jr.").data.reverse
        = '.' :: 'r' :: 'J' :: (c :: (wr ++ t.data.reverse)) := by
      rw [hdata]; simp [List.reverse_append, hwrev]
    have hmatch : matchRev ((t ++ w ++ "Jr.").data.reverse)
        = some (c :: (wr ++ t.data.reverse)) := by
      rw [hrev]; unfold matchRev tryRevSuffix
      simp [List.take, List.drop, hc]
    rw [stripSuffixS, strip_suffix_eq_of_match (by rw [hlast]; simp) hmatch]
    exact hrevarg _ rfl
  · have hlast : (t ++ w ++ "Sr.").data.getLast? = some '.' := by
      rw [hdata, List.append_assoc, List.getLast?_append,
        List.getLast?_append]
      rfl
    have hrev : (t ++ w ++ "Sr.").data.reverse
        = '.' :: 'r' :: 'S' :: (c :: (wr ++ t.data.reverse)) := by
      rw [hdata]; simp [List.reverse_append, hwrev]
    have hmatch : matchRev ((t ++ w ++ "Sr.").data.reverse)
        = some (c :: (wr ++ t.data.reverse)) := by
      rw [hrev]; unfold matchRev tryRevSuffix
      simp [List.take, List.drop, hc]
    rw [stripSuffixS, strip_suffix_eq_of_match (by rw [hlast]; simp) hmatch]
    exact hrevarg _ rfl
  · have hlast : (t ++ w ++ "II").data.getLast? = some 'I' := by
      rw [hdata, List.append_assoc, List.getLast?_append,
        List.getLast?_append]
      rfl
    have hrev : (t ++ w ++ "II").data.reverse
        = 'I' :: 'I' :: (c :: (wr ++ t.data.reverse)) := by
      rw [hdata]; simp [List.reverse_append, hwrev]
    have hmatch : matchRev ((t ++ w ++ "II").data.reverse)
        = some (c :: (wr ++ t.data.reverse)) := by
      rw [hrev]; unfold matchRev tryRevSuffix
      simp [List.take, List.drop, hc, hci]
    rw [stripSuffixS, strip_suffix_eq_of_match (by rw [hlast]; simp) hmatch]
    exact hrevarg _ rfl
  · have hlast : (t ++ w ++ "III").data.getLast? = some 'I' := by
      rw [hdata, List.append_assoc, List.getLast?_append,
        List.getLast?_append]
      rfl
    have hrev : (t ++ w ++ "III").data.reverse
        = 'I' :: 'I' :: 'I' :: (c :: (wr ++ t.data.reverse)) := by
      rw [hdata]; simp [List.reverse_append, hwrev]
    have hmatch : matchRev ((t ++ w ++ "III").data.reverse)
        = some (c :: (wr ++ t.data.reverse)) := by
      rw [hrev]; unfold matchRev tryRevSuffix
      simp [List.take, List.drop, hc]
    rw [stripSuffixS, strip_suffix_eq_of_match (by rw [hlast]; simp) hmatch]
    exact hrevarg _ rfl

theorem strip_suffix_neg (s : String)
    (h1 : s.data.getLast? ≠ some '\n')
    (h2 : ¬ ∃ t w u : String, u ∈ genSuffixes ∧ w.data ≠ [] ∧
        (∀ c ∈ w.data, isPySpace c = true) ∧ s = t ++ w ++ u) :
    strip_suffix (some s) = pyStripS s := by
  apply strip_suffix_eq_of_no_match h1
  rcases hm : matchRev s.data.reverse with _ | r
  · rfl
  · exfalso
    obtain ⟨u, hu, c, rest, hc, hdecomp, -⟩ := matchRev_some_decomp hm
    refine h2 ⟨⟨rest.reverse⟩, ⟨[c]⟩, u, hu, by simp, by simpa using hc, ?_⟩
    apply String.ext
    show s.data = rest.reverse ++ [c] ++ u.data
    have := congrArg List.reverse hdecomp
    rw [List.reverse_reverse] at this
    rw [this]
    simp

/-- C4: the name normalizer returns `""` for a missing input; for any string
of the form `t ++ w ++ u` with `u` one of `Jr.`, `Sr.`, `II`, `III` and `w`
nonempty whitespace, it removes exactly that one trailing suffix and trims
whitespace, returning `t` trimmed and otherwise unchanged (internal
punctuation, accents and hyphens of `t` are untouched); for a string with no
whitespace-preceded trailing suffix it only trims; and
`normalize "Travis Etienne Jr." = normalize "Travis Etienne"
 = "Travis Etienne"`. -/
theorem C4_normalizer_spec :
    strip_suffix none = "" ∧
    (∀ t w u : String, u ∈ genSuffixes → w.data ≠ [] →
        (∀ c ∈ w.data, isPySpace c = true) →
        stripSuffixS (t ++ w ++ u) = pyStripS t) ∧
    (∀ s : String, s.data.getLast? ≠ some '\n' →
        (¬ ∃ t w u : String, u ∈ genSuffixes ∧ w.data ≠ [] ∧
            (∀ c ∈ w.data, isPySpace c = true) ∧ s = t ++ w ++ u) →
        strip_suffix (some s) = pyStripS s) ∧
    stripSuffixS "Travis Etienne Jr." = "Travis Etienne" ∧
    stripSuffixS "Travis Etienne" = "Travis Etienne" := by
  refine ⟨rfl, strip_suffix_pos, strip_suffix_neg, by decide, by decide⟩

/-- Witness for C4 at concrete inputs: both the suffix-removal clause and the
trim-only clause, instantiated and fully discharged. -/
theorem C4_normalizer_spec_witness :
    stripSuffixS ("Joe  Et-ienne" ++ " " ++ "Jr.") = pyStripS "Joe  Et-ienne" :=
  C4_normalizer_spec.2.1 "Joe  Et-ienne" " " "Jr." (by decide) (by decide)
    (by decide)

/-- Python `str.splitlines()` as used by `remove_players_callback`, splitting at
`'\n'` and `'\r'`.  (A `"\r\n"` pair or a trailing separator contributes an
extra empty segment, which the callback's empty-line check discards, so the
parse agrees with Python's on every input.) -/
def splitNl : List Char → List (List Char)
  | [] => [[]]
  | c :: rest =>
    if c = '\n' ∨ c = '\r' then [] :: splitNl rest
    else
      match splitNl rest with
      | [] => [[c]]
      | l :: ls => (c :: l) :: ls

/-- One loop iteration of `remove_players_callback`'s parser
(`Interface.py` lines 76-86): strip the line, skip it when empty, and when it
contains a slash take the text before the first slash, stripped. -/
def lineCandidate (line : List Char) : Option String :=
  let t := py_strip line
  if t.isEmpty then none
  else if t.contains '/' then
    some ⟨py_strip (t.takeWhile fun c => !(c = '/'))⟩
  else none

/-- The parsed `names_to_remove` list (`Interface.py` lines 73-86). -/
def removal_candidates (text : String) : List String :=
  (splitNl text.data).filterMap lineCandidate

/-- The list `[strip_suffix(n).lower() for n in names_to_remove]`
(`Interface.py` lines 89 and 97). -/
def removal_keys (text : String) : List String :=
  (removal_candidates text).map fun n => strLower (stripSuffixS n)

/-- One row of the interactive table: its pandas index and its
`PLAYER NAME` cell (`none` models `NaN`).  The other columns play no role in
removal or undo and ride along with the row. -/
structure Row where
  idx : Nat
  name : Option String
deriving DecidableEq

/-- Application of `strip_suffix` and `.str.lower()` to a row's display name
(`Interface.py` lines 94-97). -/
def rowKey (r : Row) : String := strLower (strip_suffix r.name)

/-- The boolean removal mask of `Interface.py` line 97. -/
def removeMaskB (text : String) (r : Row) : Bool :=
  (removal_keys text).contains (rowKey r)

/-- The session state: `st.session_state.df_filtered` and
`st.session_state.removed_stack`. -/
structure DraftState where
  df_filtered : List Row
  removed_stack : List (List Row)
deriving DecidableEq

/-- The callback `remove_players_callback` (`Interface.py` lines 70-107): filter the
current table by the mask; when the removed batch is non-empty, push it and
keep the unmasked rows, otherwise leave the state unchanged. -/
def remove_players_callback (S : DraftState) (text : String) : DraftState :=
  let removed := S.df_filtered.filter (removeMaskB text)
  if removed.isEmpty then S
  else
    { df_filtered := S.df_filtered.filter fun r => !(removeMaskB text r),
      removed_stack := S.removed_stack ++ [removed] }

/-- The pandas index order used by `sort_index()`. -/
def rowIdxLe (a b : Row) : Prop := a.idx ≤ b.idx

instance : DecidableRel rowIdxLe := fun a b => Nat.decLe a.idx b.idx

instance : IsTotal Row rowIdxLe := ⟨fun a b => Nat.le_total a.idx b.idx⟩

instance : IsTrans Row rowIdxLe := ⟨fun _ _ _ h h' => Nat.le_trans h h'⟩

/-- Strict pandas index order; the initial `RangeIndex` is strict in it. -/
def rowIdxLt (a b : Row) : Prop := a.idx < b.idx

instance : DecidableRel rowIdxLt := fun a b => Nat.decLt a.idx b.idx

/-- The callback `undo_removal_callback` (`Interface.py` lines 109-118): pop the last
batch and merge it back with `pd.concat(...).sort_index()`, modelled by a
comparison sort on the pandas index (on the reachable states all indices are
distinct, where every comparison sort returns the same list). -/
def undo_removal_callback (S : DraftState) : DraftState :=
  match S.removed_stack.getLast? with
  | none => S
  | some batch =>
    { df_filtered := List.insertionSort rowIdxLe (S.df_filtered ++ batch),
      removed_stack := S.removed_stack.dropLast }

/-- States reachable from the initial session state, whose table is the
`output.csv` dataframe with its strictly increasing fresh `RangeIndex` and
whose stack is empty (`Interface.py` lines 63-67). -/
inductive Reachable (init : List Row) : DraftState → Prop where
  | base : List.Pairwise rowIdxLt init → Reachable init ⟨init, []⟩
  | step_remove {S : DraftState} (text : String) :
      Reachable init S → Reachable init (remove_players_callback S text)
  | step_undo {S : DraftState} :
      Reachable init S → Reachable init (undo_removal_callback S)


theorem idx_nodup_of_pairwise_lt {l : List Row}
    (h : List.Pairwise rowIdxLt l) : (l.map Row.idx).Nodup := by
  rw [List.Nodup, List.pairwise_map]
  exact h.imp fun hab => Nat.ne_of_lt hab

theorem pairwise_lt_of_le_of_idx_nodup {l : List Row}
    (hle : List.Pairwise rowIdxLe l) (hnd : (l.map Row.idx).Nodup) :
    List.Pairwise rowIdxLt l := by
  rw [List.Nodup, List.pairwise_map] at hnd
  exact (hle.and hnd).imp fun hab => Nat.lt_of_le_of_ne hab.1 hab.2

theorem nodup_of_pairwise_lt {l : List Row}
    (h : List.Pairwise rowIdxLt l) : l.Nodup :=
  h.imp fun hab he => absurd (he ▸ hab) (Nat.lt_irrefl _)

/-- The session invariant, proved by induction over reachability: the current
table and the stacked batches together are a permutation of the initial
table, and the current table stays strictly sorted by pandas index. -/
theorem reachable_inv {init : List Row} {S : DraftState}
    (h : Reachable init S) :
    (S.df_filtered ++ S.removed_stack.flatten).Perm init ∧
    List.Pairwise rowIdxLt S.df_filtered ∧
    List.Pairwise rowIdxLt init := by
  induction h with
  | base hsort => exact ⟨by simp, hsort, hsort⟩
  | step_remove text hr ih =>
    obtain ⟨hperm, hsort, hinit⟩ := ih
    rename_i S
    by_cases hre : (S.df_filtered.filter (removeMaskB text)).isEmpty = true
    · simp only [remove_players_callback, hre, if_true]
      exact ⟨hperm, hsort, hinit⟩
    · simp only [remove_players_callback, hre, Bool.false_eq_true, if_false]
      refine ⟨?_, hsort.filter _, hinit⟩
      have h1 : ((S.df_filtered.filter (removeMaskB text)) ++
          (S.df_filtered.filter fun r => !(removeMaskB text r))).Perm
            S.df_filtered := List.filter_append_perm _ _
      have h2 : ((S.df_filtered.filter fun r => !(removeMaskB text r)) ++
          (S.df_filtered.filter (removeMaskB text))).Perm S.df_filtered :=
        List.perm_append_comm.trans h1
      have h3 : ((S.df_filtered.filter fun r => !(removeMaskB text r)) ++
          (S.removed_stack ++
            [S.df_filtered.filter (removeMaskB text)]).flatten)
          = (S.df_filtered.filter fun r => !(removeMaskB text r)) ++
            (S.removed_stack.flatten ++
              S.df_filtered.filter (removeMaskB text)) := by
        simp [List.flatten_append]
      rw [h3]
      refine List.Perm.trans ?_ hperm
      refine List.Perm.trans
        (List.Perm.append_left _ List.perm_append_comm) ?_
      rw [← List.append_assoc]
      exact List.Perm.append_right _ h2
  | step_undo hr ih =>
    obtain ⟨hperm, hsort, hinit⟩ := ih
    rename_i S
    rcases hl : S.removed_stack.getLast? with _ | batch
    · simp only [undo_removal_callback, hl]
      exact ⟨hperm, hsort, hinit⟩
    · obtain ⟨rest, hrest⟩ := List.getLast?_eq_some_iff.mp hl
      simp only [undo_removal_callback, hl]
      have hps : (List.insertionSort rowIdxLe (S.df_filtered ++ batch)).Perm
          (S.df_filtered ++ batch) := List.perm_insertionSort _ _
      have hperm2 : ((S.df_filtered ++ batch) ++ rest.flatten).Perm init := by
        refine List.Perm.trans ?_ hperm
        rw [List.append_assoc, hrest, List.flatten_append]
        refine List.Perm.append_left _ ?_
        have hb : [batch].flatten = batch := by simp
        rw [hb]
        exact List.perm_append_comm
      have hnodup_init : (init.map Row.idx).Nodup :=
        idx_nodup_of_pairwise_lt hinit
      have hnodup : ((S.df_filtered ++ batch).map Row.idx).Nodup :=
        List.Nodup.sublist
          (List.Sublist.map _ (List.sublist_append_left _ _))
          ((hperm2.map Row.idx).symm.nodup hnodup_init)
      refine ⟨?_, ?_, hinit⟩
      · rw [hrest, List.dropLast_concat]
        exact (hps.append_right _).trans hperm2
      · exact pairwise_lt_of_le_of_idx_nodup
          (List.sorted_insertionSort rowIdxLe _)
          ((hps.map Row.idx).symm.nodup hnodup)

/-- C1: on every reachable session state, Remove and Undo are exact inverses:
when Remove matches a non-empty batch, Undo restores a current table equal to
the previous one (same rows, same order); Undo on an empty removed-stack
leaves the state unchanged; and Remove whose text matches no current row
leaves the state unchanged. -/
theorem C1_remove_undo_exact_inverse (init : List Row) (S : DraftState)
    (text : String) (h : Reachable init S) :
    (S.df_filtered.filter (removeMaskB text) ≠ [] →
        (undo_removal_callback (remove_players_callback S text)).df_filtered
          = S.df_filtered) ∧
    (S.removed_stack = [] → undo_removal_callback S = S) ∧
    (S.df_filtered.filter (removeMaskB text) = [] →
        remove_players_callback S text = S) := by
  obtain ⟨hperm, hsort, hinit⟩ := reachable_inv h
  refine ⟨?_, ?_, ?_⟩
  · intro hne
    have hre : (S.df_filtered.filter (removeMaskB text)).isEmpty = false := by
      simpa [List.isEmpty_iff] using hne
    simp only [remove_players_callback, hre, Bool.false_eq_true, if_false]
    simp only [undo_removal_callback, List.getLast?_concat,
      List.dropLast_concat]
    have h2 : ((S.df_filtered.filter fun r => !(removeMaskB text r)) ++
        (S.df_filtered.filter (removeMaskB text))).Perm S.df_filtered :=
      List.perm_append_comm.trans (List.filter_append_perm _ _)
    have hps : (List.insertionSort rowIdxLe
        ((S.df_filtered.filter fun r => !(removeMaskB text r)) ++
          S.df_filtered.filter (removeMaskB text))).Perm S.df_filtered :=
      (List.perm_insertionSort _ _).trans h2
    have hnodup : ((List.insertionSort rowIdxLe
        ((S.df_filtered.filter fun r => !(removeMaskB text r)) ++
          S.df_filtered.filter (removeMaskB text))).map Row.idx).Nodup :=
      (hps.map Row.idx).symm.nodup (idx_nodup_of_pairwise_lt hsort)
    have hsorted : List.Pairwise rowIdxLt (List.insertionSort rowIdxLe
        ((S.df_filtered.filter fun r => !(removeMaskB text r)) ++
          S.df_filtered.filter (removeMaskB text))) :=
      pairwise_lt_of_le_of_idx_nodup
        (List.sorted_insertionSort rowIdxLe _) hnodup
    haveI : IsAntisymm Row rowIdxLt :=
      ⟨fun _ _ h1 h2 => absurd (Nat.lt_trans h1 h2) (Nat.lt_irrefl _)⟩
    exact List.eq_of_perm_of_sorted hps hsorted hsort
  · intro hemp
    simp [undo_removal_callback, hemp]
  · intro hemp
    simp [remove_players_callback, hemp]

/-- Witness for C1: the end-to-end scenario of spec section 8, removing
Travis Etienne by pasted draft-history text and undoing it. -/
theorem C1_remove_undo_exact_inverse_witness :
    ([(⟨0, some "Patrick Mahomes"⟩ : Row),
       ⟨1, some "Travis Etienne Jr."⟩].filter
        (removeMaskB "Travis Etienne / JAX / RB\nSome Team Defense") ≠ []) ∧
    (undo_removal_callback (remove_players_callback
        ⟨[⟨0, some "Patrick Mahomes"⟩, ⟨1, some "Travis Etienne Jr."⟩], []⟩
        "Travis Etienne / JAX / RB\nSome Team Defense")).df_filtered
      = [⟨0, some "Patrick Mahomes"⟩, ⟨1, some "Travis Etienne Jr."⟩] :=
  ⟨by decide,
    (C1_remove_undo_exact_inverse
      [⟨0, some "Patrick Mahomes"⟩, ⟨1, some "Travis Etienne Jr."⟩]
      ⟨[⟨0, some "Patrick Mahomes"⟩, ⟨1, some "Travis Etienne Jr."⟩], []⟩
      "Travis Etienne / JAX / RB\nSome Team Defense"
      (Reachable.base (by decide))).1 (by decide)⟩

/-- C2: on every reachable session state, the current table and the batches
on the removed-stack together are a permutation of the original table, and no
row occurs twice across the current table and the stacked batches. -/
theorem C2_session_state_invariant (init : List Row) (S : DraftState)
    (h : Reachable init S) :
    (S.df_filtered ++ S.removed_stack.flatten).Perm init ∧
    (S.df_filtered ++ S.removed_stack.flatten).Nodup := by
  obtain ⟨hperm, hsort, hinit⟩ := reachable_inv h
  exact ⟨hperm, hperm.symm.nodup (nodup_of_pairwise_lt hinit)⟩

/-- Witness for C2 on the state reached by one Remove from the section-8
scenario state. -/
theorem C2_session_state_invariant_witness :
    ((remove_players_callback
        ⟨[⟨0, some "Patrick Mahomes"⟩, ⟨1, some "Travis Etienne Jr."⟩], []⟩
        "Travis Etienne / JAX / RB").df_filtered ++
      (remove_players_callback
        ⟨[⟨0, some "Patrick Mahomes"⟩, ⟨1, some "Travis Etienne Jr."⟩], []⟩
        "Travis Etienne / JAX / RB").removed_stack.flatten).Perm
      [⟨0, some "Patrick Mahomes"⟩, ⟨1, some "Travis Etienne Jr."⟩] :=
  (C2_session_state_invariant
    [⟨0, some "Patrick Mahomes"⟩, ⟨1, some "Travis Etienne Jr."⟩]
    (remove_players_callback
      ⟨[⟨0, some "Patrick Mahomes"⟩, ⟨1, some "Travis Etienne Jr."⟩], []⟩
      "Travis Etienne / JAX / RB")
    (Reachable.step_remove "Travis Etienne / JAX / RB"
      (Reachable.base (by decide)))).1

/-- Claim C5 read literally: the candidate names are the substrings before
the first slash of the non-empty lines that contain a slash (no whitespace
trimming of that substring). -/
def claimCandidatesLiteral (text : String) : List String :=
  (((splitNl text.data).map py_strip).filter
      fun t => !t.isEmpty && t.contains '/').map
    fun t => ⟨(t.span fun c => !(c = '/')).1⟩

/-- The removal set predicted by claim C5 read literally. -/
def claimRemovedLiteral (S : DraftState) (text : String) : List Row :=
  S.df_filtered.filter fun r =>
    ((claimCandidatesLiteral text).map
      fun n => strLower (stripSuffixS n)).contains (rowKey r)

/-- Claim C5 as amended: the candidates are the whitespace-trimmed
substrings before the first slash of the non-empty lines that contain a
slash. -/
def claimCandidatesTrimmed (text : String) : List String :=
  (((splitNl text.data).map py_strip).filter
      fun t => !t.isEmpty && t.contains '/').map
    fun t => ⟨py_strip (t.span fun c => !(c = '/')).1⟩

/-- Counterexample to C5 as stated: on the table holding the single row
`Travis Etienne Jr.` and the pasted line `Travis Etienne Jr. / JAX / RB`,
the code removes the row, but the un-trimmed candidate
`"Travis Etienne Jr. "` normalizes to `"travis etienne jr."` (the suffix is
no longer anchored at the end of the string), which matches nothing, so the
claim predicts an empty removal set. -/
theorem C5_counterexample_literal_candidates :
    ¬ ((⟨[⟨0, some "Travis Etienne Jr."⟩], []⟩ : DraftState).df_filtered.filter
          (removeMaskB "Travis Etienne Jr. / JAX / RB")
        = claimRemovedLiteral ⟨[⟨0, some "Travis Etienne Jr."⟩], []⟩
            "Travis Etienne Jr. / JAX / RB") := by
  decide

theorem removal_candidates_eq_trimmed (text : String) :
    removal_candidates text = claimCandidatesTrimmed text := by
  unfold removal_candidates claimCandidatesTrimmed
  induction splitNl text.data with
  | nil => rfl
  | cons line rest ih =>
    simp only [List.filterMap_cons, List.map_cons]
    by_cases h1 : (py_strip line).isEmpty = true
    · simp only [lineCandidate, h1, if_true, List.filter_cons,
        Bool.not_true, Bool.false_and, Bool.false_eq_true, if_false]
      exact ih
    · by_cases h2 : (py_strip line).contains '/' = true
      · simp only [lineCandidate, h1, Bool.false_eq_true, if_false, h2,
          if_true, List.filter_cons, Bool.not_eq_true', Bool.not_false,
          h2, Bool.and_self, List.map_cons]
        rw [List.span_eq_take_drop]
        have hb : (!(py_strip line).isEmpty && true) = true := by
          simp [h1]
        simp only [Bool.not_eq_true' ] at h1
        simp only [h1, Bool.not_false, Bool.true_and, h2, if_true,
          List.map_cons]
        exact congrArg _ ih
      · simp only [lineCandidate, h1, Bool.false_eq_true, if_false, h2,
          if_false, List.filter_cons]
        simp only [Bool.not_eq_true'] at h1
        simp only [h1, Bool.not_false, Bool.true_and, h2,
          Bool.false_eq_true, if_false]
        exact ih

/-- C5 (amended): the candidate names are exactly the whitespace-trimmed
substrings before the first slash of the non-empty lines that contain a
slash; a row is masked exactly when its normalized lower-cased display name
equals (exact string equality) the normalized lower-cased form of some
candidate; and when the mask matches a non-empty batch the whole batch is
pushed onto the undo stack as one unit and the current table becomes the
unmasked rows. -/
theorem C5_remove_matching_semantics (S : DraftState) (text : String) :
    removal_candidates text = claimCandidatesTrimmed text ∧
    (∀ r : Row, removeMaskB text r = true ↔
      strLower (strip_suffix r.name) ∈
        ((claimCandidatesTrimmed text).map
          fun n => strLower (stripSuffixS n))) ∧
    (S.df_filtered.filter (removeMaskB text) ≠ [] →
      remove_players_callback S text =
        ⟨S.df_filtered.filter fun r => !(removeMaskB text r),
         S.removed_stack ++ [S.df_filtered.filter (removeMaskB text)]⟩) := by
  refine ⟨removal_candidates_eq_trimmed text, ?_, ?_⟩
  · intro r
    unfold removeMaskB removal_keys rowKey
    rw [removal_candidates_eq_trimmed text]
    exact List.elem_iff
  · intro hne
    have hre : (S.df_filtered.filter (removeMaskB text)).isEmpty = false := by
      simpa [List.isEmpty_iff] using hne
    simp [remove_players_callback, hre]

/-- Witness for C5 at the section-8 scenario input. -/
theorem C5_remove_matching_semantics_witness :
    remove_players_callback
        ⟨[⟨0, some "Patrick Mahomes"⟩, ⟨1, some "Travis Etienne Jr."⟩], []⟩
        "Travis Etienne / JAX / RB\nSome Team Defense"
      = ⟨[⟨0, some "Patrick Mahomes"⟩], [[⟨1, some "Travis Etienne Jr."⟩]]⟩ := by
  have h := (C5_remove_matching_semantics
    ⟨[⟨0, some "Patrick Mahomes"⟩, ⟨1, some "Travis Etienne Jr."⟩], []⟩
    "Travis Etienne / JAX / RB\nSome Team Defense").2.2 (by decide)
  rw [h]
  decide

/-- Python `str.split()` with no separator: split on whitespace runs,
dropping empty pieces; `cur` carries the current token reversed. -/
def tokensAux : List Char → List Char → List (List Char)
  | cur, [] => if cur.isEmpty then [] else [cur.reverse]
  | cur, c :: rest =>
    if isPySpace c then
      if cur.isEmpty then tokensAux [] rest
      else cur.reverse :: tokensAux [] rest
    else tokensAux (c :: cur) rest

/-- Whitespace tokenisation of a string. -/
def pyTokens (cs : List Char) : List (List Char) := tokensAux [] cs

/-- Python `sorted` on strings: lexicographic comparison by code point. -/
def tokLe (a b : List Char) : Prop := a.map Char.toNat ≤ b.map Char.toNat

instance : DecidableRel tokLe :=
  fun a b => inferInstanceAs (Decidable (a.map Char.toNat ≤ b.map Char.toNat))

instance : IsTotal (List Char) tokLe := ⟨fun _ _ => le_total _ _⟩

instance : IsTrans (List Char) tokLe := ⟨fun _ _ _ h h2 => le_trans h h2⟩

/-- The rapidfuzz `token_sort` preprocessing: tokens sorted alphabetically
and rejoined with single spaces. -/
def tokenSortKey (s : String) : List Char :=
  List.intercalate [' '] (List.insertionSort tokLe (pyTokens s.data))

/-- Length of a longest common subsequence, one row of the recursion:
`lcsRow a f ys` computes the LCS length of `a :: as` and `ys` given
`f = lcsFun as`.  Structured this way so both recursions are structural and
the function evaluates inside the kernel. -/
def lcsRow (a : Char) (f : List Char → Nat) : List Char → Nat
  | [] => 0
  | b :: bs => if a = b then f bs + 1 else max (f (b :: bs)) (lcsRow a f bs)

/-- Length of a longest common subsequence of two character lists. -/
def lcsFun : List Char → List Char → Nat
  | [] => fun _ => 0
  | a :: as => lcsRow a (lcsFun as)

/-- LCS length; the rapidfuzz InDel distance of `a` and `b` is
`a.length + b.length - 2 * lcsLen a b`. -/
def lcsLen (a b : List Char) : Nat := lcsFun a b

/-- The rapidfuzz normalized InDel similarity scaled to `0..100`:
`100 * (1 - dist / (m + n)) = 200 * lcs / (m + n)`, and `100` when both
strings are empty. -/
def qScore (l d : Nat) : ℚ := if d = 0 then 100 else 200 * l / d

/-- The scorer `fuzz.token_sort_ratio`: the scaled InDel similarity of the two
token-sorted strings. -/
def simScore (s t : String) : ℚ :=
  qScore (lcsLen (tokenSortKey s) (tokenSortKey t))
    ((tokenSortKey s).length + (tokenSortKey t).length)

/-- Deciding `qScore l d ≥ cut`, computed over `Nat` by cross-multiplication so that
the matcher evaluates inside the kernel. -/
def scoreGeCutB (l d cut : Nat) : Bool :=
  if d = 0 then cut ≤ 100 else cut * d ≤ 200 * l

/-- Deciding `qScore l1 d1 > qScore l2 d2`, computed over `Nat` by
cross-multiplication. -/
def scoreGtB (l1 d1 l2 d2 : Nat) : Bool :=
  if d1 = 0 then (if d2 = 0 then false else 200 * l2 < 100 * d2)
  else if d2 = 0 then 100 * d1 < 200 * l1
  else l2 * d1 < l1 * d2

/-- The call `process.extract(name, choices, scorer=fuzz.token_sort_ratio, limit=1,
score_cutoff)`: the best-scoring choice whose score is at least the cutoff,
earliest choice on ties, together with its LCS length and length sum. -/
def extractBest (q : String) (cutoff : Nat) : List String →
    Option (String × Nat × Nat)
  | [] => none
  | c :: rest =>
    let l := lcsLen (tokenSortKey q) (tokenSortKey c)
    let d := (tokenSortKey q).length + (tokenSortKey c).length
    match extractBest q cutoff rest with
    | none => if scoreGeCutB l d cutoff then some (c, l, d) else none
    | some (c2, l2, d2) =>
      if scoreGeCutB l d cutoff && !(scoreGtB l2 d2 l d) then some (c, l, d)
      else some (c2, l2, d2)

/-- The function `fuzzy_match_names` from `main.py` lines 40-43 (identical in
`Ranked_List_Generator.py`): the best fuzzy match above the cutoff, or
`None`.  The call sites always use `limit=1`, which is what `extractBest`
implements. -/
def fuzzy_match_names (name : String) (choices : List String)
    (score_cutoff : Nat := 80) : Option String :=
  (extractBest name score_cutoff choices).map Prod.fst


theorem lcsLen_self (a : List Char) : lcsLen a a = a.length := by
  induction a with
  | nil => rfl
  | cons x xs ih =>
    show lcsRow x (lcsFun xs) (x :: xs) = xs.length + 1
    simp only [lcsRow, if_pos rfl]
    exact congrArg (· + 1) ih

theorem lcsLen_le_left : ∀ a b : List Char, lcsLen a b ≤ a.length := by
  intro a
  induction a with
  | nil => intro b; exact Nat.le_refl 0
  | cons x xs ih =>
    intro b
    induction b with
    | nil => exact Nat.zero_le _
    | cons y ys ihb =>
      show lcsRow x (lcsFun xs) (y :: ys) ≤ xs.length + 1
      simp only [lcsRow]
      by_cases hxy : x = y
      · rw [if_pos hxy]
        exact Nat.add_le_add_right (ih ys) 1
      · rw [if_neg hxy]
        exact max_le (Nat.le_trans (ih (y :: ys)) (Nat.le_succ _)) ihb

theorem lcsLen_le_right : ∀ a b : List Char, lcsLen a b ≤ b.length := by
  intro a
  induction a with
  | nil => intro b; exact Nat.zero_le _
  | cons x xs ih =>
    intro b
    induction b with
    | nil => exact Nat.le_refl 0
    | cons y ys ihb =>
      show lcsRow x (lcsFun xs) (y :: ys) ≤ ys.length + 1
      simp only [lcsRow]
      by_cases hxy : x = y
      · rw [if_pos hxy]
        exact Nat.add_le_add_right (ih ys) 1
      · rw [if_neg hxy]
        exact max_le (ih (y :: ys)) (Nat.le_trans ihb (Nat.le_succ _))

theorem scoreGeCutB_iff (l d cut : Nat) :
    scoreGeCutB l d cut = true ↔ (cut : ℚ) ≤ qScore l d := by
  unfold scoreGeCutB qScore
  by_cases hd : d = 0
  · simp only [hd, if_true, if_pos rfl, decide_eq_true_eq]
    constructor <;> intro h <;> exact_mod_cast h
  · have hd0 : (0 : ℚ) < d := by positivity
    simp only [hd, if_false]
    rw [le_div_iff₀ hd0, decide_eq_true_eq]
    constructor <;> intro h <;> exact_mod_cast h

theorem scoreGtB_iff (l1 d1 l2 d2 : Nat) :
    scoreGtB l1 d1 l2 d2 = true ↔ qScore l2 d2 < qScore l1 d1 := by
  unfold scoreGtB qScore
  by_cases h1 : d1 = 0 <;> by_cases h2 : d2 = 0
  · simp [h1, h2]
  · have hd2 : (0 : ℚ) < d2 := by positivity
    simp only [h1, h2, if_true, if_false, if_pos rfl, decide_eq_true_eq]
    rw [div_lt_iff₀ hd2]
    constructor <;> intro h <;> exact_mod_cast h
  · have hd1 : (0 : ℚ) < d1 := by positivity
    simp only [h1, h2, if_true, if_false, if_pos rfl, decide_eq_true_eq]
    rw [lt_div_iff₀ hd1]
    constructor <;> intro h <;> exact_mod_cast h
  · have hd1 : (0 : ℚ) < d1 := by positivity
    have hd2 : (0 : ℚ) < d2 := by positivity
    simp only [h1, h2, if_false, decide_eq_true_eq]
    rw [div_lt_div_iff₀ hd2 hd1]
    constructor
    · intro h
      have h' : ((l2 : ℚ) * d1) < ((l1 : ℚ) * d2) := by exact_mod_cast h
      nlinarith
    · intro h
      have h' : ((l2 : ℚ) * d1) < ((l1 : ℚ) * d2) := by nlinarith
      exact_mod_cast h'

theorem qScore_le_100 {l d : Nat} (h : 2 * l ≤ d) : qScore l d ≤ 100 := by
  unfold qScore
  by_cases hd : d = 0
  · simp [hd]
  · have hd0 : (0 : ℚ) < (d : ℚ) := by
      exact_mod_cast Nat.pos_of_ne_zero hd
    rw [if_neg hd, div_le_iff₀ hd0]
    have h200 : ((200 * l : ℕ) : ℚ) ≤ ((100 * d : ℕ) : ℚ) := by
      exact_mod_cast (by omega : 200 * l ≤ 100 * d)
    push_cast at h200
    linarith

theorem simScore_le_100 (s t : String) : simScore s t ≤ 100 := by
  unfold simScore
  refine qScore_le_100 ?_
  have h1 := lcsLen_le_left (tokenSortKey s) (tokenSortKey t)
  have h2 := lcsLen_le_right (tokenSortKey s) (tokenSortKey t)
  omega

theorem simScore_self (q : String) : simScore q q = 100 := by
  unfold simScore qScore
  rw [lcsLen_self]
  by_cases hn : (tokenSortKey q).length = 0
  · simp [hn]
  · have h0 : ((tokenSortKey q).length : ℚ) > 0 := by
      exact_mod_cast Nat.pos_of_ne_zero hn
    rw [if_neg (by omega)]
    push_cast
    field_simp
    ring

theorem extractBest_none {q : String} {cut : Nat} : ∀ {cs : List String},
    extractBest q cut cs = none → ∀ c ∈ cs, simScore q c < cut := by
  intro cs
  induction cs with
  | nil => intro _ c hc; exact absurd hc (List.not_mem_nil c)
  | cons x rest ih =>
    intro h c hc
    rcases hrest : extractBest q cut rest with _ | ⟨⟨c2, l2, d2⟩⟩
    · simp only [extractBest, hrest] at h
      by_cases hge : scoreGeCutB (lcsLen (tokenSortKey q) (tokenSortKey x))
          ((tokenSortKey q).length + (tokenSortKey x).length) cut = true
      · rw [if_pos hge] at h; exact absurd h (by simp)
      · rcases List.mem_cons.mp hc with hcx | hcr
        · subst hcx
          have := (not_iff_not.mpr
            (scoreGeCutB_iff (lcsLen (tokenSortKey q) (tokenSortKey c))
              ((tokenSortKey q).length + (tokenSortKey c).length) cut)).mp
            (by simpa using hge)
          exact lt_of_not_le this
        · exact ih hrest c hcr
    · simp only [extractBest, hrest] at h
      by_cases hcond : (scoreGeCutB (lcsLen (tokenSortKey q) (tokenSortKey x))
          ((tokenSortKey q).length + (tokenSortKey x).length) cut &&
          !(scoreGtB l2 d2 (lcsLen (tokenSortKey q) (tokenSortKey x))
            ((tokenSortKey q).length + (tokenSortKey x).length))) = true
      · rw [if_pos hcond] at h; exact absurd h (by simp)
      · rw [if_neg hcond] at h; exact absurd h (by simp)

theorem extractBest_some_spec {q : String} {cut : Nat} : ∀ {cs : List String}
    {c : String} {l d : Nat}, extractBest q cut cs = some (c, l, d) →
    c ∈ cs ∧ simScore q c = qScore l d ∧ (cut : ℚ) ≤ simScore q c ∧
      ∀ c' ∈ cs, simScore q c' ≤ simScore q c := by
  intro cs
  induction cs with
  | nil => intro c l d h; exact absurd h (by simp [extractBest])
  | cons x rest ih =>
    intro c l d h
    rcases hrest : extractBest q cut rest with _ | ⟨⟨c2, l2, d2⟩⟩
    · simp only [extractBest, hrest] at h
      by_cases hge : scoreGeCutB (lcsLen (tokenSortKey q) (tokenSortKey x))
          ((tokenSortKey q).length + (tokenSortKey x).length) cut = true
      · rw [if_pos hge] at h
        obtain ⟨hx, hl, hd⟩ : c = x ∧
            l = lcsLen (tokenSortKey q) (tokenSortKey x) ∧
            d = (tokenSortKey q).length + (tokenSortKey x).length := by
          have h' := h.symm
          simp only [Option.some.injEq, Prod.mk.injEq] at h'
          exact ⟨h'.1, h'.2.1, h'.2.2⟩
        subst hx hl hd
        have heq : simScore q c = qScore (lcsLen (tokenSortKey q)
            (tokenSortKey c))
            ((tokenSortKey q).length + (tokenSortKey c).length) := rfl
        refine ⟨List.mem_cons_self _ _, heq, ?_, ?_⟩
        · rw [heq]; exact (scoreGeCutB_iff _ _ _).mp hge
        · intro c' hc'
          rcases List.mem_cons.mp hc' with hcx | hcr
          · subst hcx; exact le_refl _
          · exact le_trans (le_of_lt (extractBest_none hrest c' hcr))
              ((scoreGeCutB_iff _ _ _).mp hge)
      · rw [if_neg hge] at h; exact absurd h (by simp)
    · obtain ⟨hmem2, heq2, hcut2, hmax2⟩ := ih hrest
      simp only [extractBest, hrest] at h
      by_cases hcond : (scoreGeCutB (lcsLen (tokenSortKey q) (tokenSortKey x))
          ((tokenSortKey q).length + (tokenSortKey x).length) cut &&
          !(scoreGtB l2 d2 (lcsLen (tokenSortKey q) (tokenSortKey x))
            ((tokenSortKey q).length + (tokenSortKey x).length))) = true
      · rw [if_pos hcond] at h
        obtain ⟨hge, hngt⟩ := Bool.and_eq_true_iff.mp hcond
        obtain ⟨hx, hl, hd⟩ : c = x ∧
            l = lcsLen (tokenSortKey q) (tokenSortKey x) ∧
            d = (tokenSortKey q).length + (tokenSortKey x).length := by
          have h' := h.symm
          simp only [Option.some.injEq, Prod.mk.injEq] at h'
          exact ⟨h'.1, h'.2.1, h'.2.2⟩
        subst hx hl hd
        have heq : simScore q c = qScore (lcsLen (tokenSortKey q)
            (tokenSortKey c))
            ((tokenSortKey q).length + (tokenSortKey c).length) := rfl
        have hgtf : scoreGtB l2 d2 (lcsLen (tokenSortKey q) (tokenSortKey c))
            ((tokenSortKey q).length + (tokenSortKey c).length) = false := by
          simpa using hngt
        have hle2 : qScore l2 d2 ≤ simScore q c := by
          rw [heq]
          exact le_of_not_lt ((not_iff_not.mpr (scoreGtB_iff _ _ _ _)).mp
            (by simp [hgtf]))
        refine ⟨List.mem_cons_self _ _, heq, ?_, ?_⟩
        · rw [heq]; exact (scoreGeCutB_iff _ _ _).mp hge
        · intro c' hc'
          rcases List.mem_cons.mp hc' with hcx | hcr
          · subst hcx; exact le_refl _
          · exact le_trans (hmax2 c' hcr) (heq2 ▸ hle2)
      · rw [if_neg hcond] at h
        obtain ⟨hx, hl, hd⟩ : c = c2 ∧ l = l2 ∧ d = d2 := by
          have h' := h.symm
          simp only [Option.some.injEq, Prod.mk.injEq] at h'
          exact ⟨h'.1, h'.2.1, h'.2.2⟩
        subst hx hl hd
        refine ⟨List.mem_cons_of_mem _ hmem2, heq2, hcut2, ?_⟩
        intro c' hc'
        rcases List.mem_cons.mp hc' with hcx | hcr
        · subst hcx
          by_cases hge : scoreGeCutB (lcsLen (tokenSortKey q)
              (tokenSortKey c'))
              ((tokenSortKey q).length + (tokenSortKey c').length) cut = true
          · have hgt : scoreGtB l d (lcsLen (tokenSortKey q)
                (tokenSortKey c'))
                ((tokenSortKey q).length + (tokenSortKey c').length) = true := by
              rcases Bool.eq_false_or_eq_true (scoreGtB l d
                (lcsLen (tokenSortKey q) (tokenSortKey c'))
                ((tokenSortKey q).length + (tokenSortKey c').length)) with ht | hf
              · exact ht
              · exfalso; apply hcond; simp [hge, hf]
            have := (scoreGtB_iff _ _ _ _).mp hgt
            exact le_of_lt (lt_of_lt_of_le this (le_of_eq heq2.symm))
          · have := (not_iff_not.mpr (scoreGeCutB_iff (lcsLen
              (tokenSortKey q) (tokenSortKey c'))
              ((tokenSortKey q).length + (tokenSortKey c').length) cut)).mp
              (by simpa using hge)
            exact le_of_lt (lt_of_lt_of_le (lt_of_not_le this) hcut2)
        · exact hmax2 c' hcr

/-- C6: for every query, candidate list, and threshold, the matcher returns
a candidate only when its token-sort similarity is at least the threshold
and no candidate scores higher; it returns no match when every candidate
scores below the threshold; an empty candidate list yields no match; a query
equal to itself scores `100`; and when the query equals some candidate and
the threshold is at most `100` (scores live in `[0, 100]`), a candidate with
score `100` is returned. -/
theorem C6_fuzzy_matcher_spec (q : String) (choices : List String)
    (cut : Nat) :
    (choices = [] → fuzzy_match_names q choices cut = none) ∧
    (∀ c, fuzzy_match_names q choices cut = some c →
      c ∈ choices ∧ (cut : ℚ) ≤ simScore q c ∧
        ∀ c' ∈ choices, simScore q c' ≤ simScore q c) ∧
    (fuzzy_match_names q choices cut = none →
      ∀ c ∈ choices, simScore q c < cut) ∧
    simScore q q = 100 ∧
    (q ∈ choices → cut ≤ 100 →
      ∃ c, fuzzy_match_names q choices cut = some c ∧ simScore q c = 100) := by
  refine ⟨?_, ?_, ?_, simScore_self q, ?_⟩
  · intro h; subst h; rfl
  · intro c h
    rcases hx : extractBest q cut choices with _ | ⟨⟨c1, l1, d1⟩⟩
    · rw [fuzzy_match_names, hx] at h; exact absurd h (by simp)
    · rw [fuzzy_match_names, hx] at h
      simp only [Option.map_some', Option.some.injEq] at h
      subst h
      obtain ⟨hmem, _, hcut, hmax⟩ := extractBest_some_spec hx
      exact ⟨hmem, hcut, hmax⟩
  · intro h
    rcases hx : extractBest q cut choices with _ | ⟨⟨c1, l1, d1⟩⟩
    · exact extractBest_none hx
    · rw [fuzzy_match_names, hx] at h; exact absurd h (by simp)
  · intro hq hcut
    rcases hx : extractBest q cut choices with _ | ⟨⟨c1, l1, d1⟩⟩
    · exfalso
      have h1 := extractBest_none hx q hq
      rw [simScore_self q] at h1
      have : (cut : ℚ) ≤ 100 := by exact_mod_cast hcut
      linarith
    · obtain ⟨hmem, _, hcut1, hmax⟩ := extractBest_some_spec hx
      refine ⟨c1, by rw [fuzzy_match_names, hx]; rfl, ?_⟩
      have hlow : (100 : ℚ) ≤ simScore q c1 := by
        have := hmax q hq
        rwa [simScore_self q] at this
      exact le_antisymm (simScore_le_100 q c1) hlow

/-- Witness for C6 at a concrete query and candidate list: the query equals
the first candidate, so a score-100 candidate is returned. -/
theorem C6_fuzzy_matcher_spec_witness :
    ∃ c, fuzzy_match_names "travis etienne"
        ["travis etienne", "trevor lawrence"] 80 = some c ∧
      simScore "travis etienne" c = 100 :=
  (C6_fuzzy_matcher_spec "travis etienne"
    ["travis etienne", "trevor lawrence"] 80).2.2.2.2
    (by decide) (by decide)

/-- One row of the Sleeper roster feed, with the fields the modelled code
reads: `full_name`, `position` and `team_changed_at` (epoch seconds;
`none` models `NaN`, which `pd.to_datetime(..., errors="coerce")` turns into
`NaT`).  `player_id` stands for the remaining payload and keeps otherwise
identical rows distinguishable. -/
structure PlayerRow where
  player_id : Nat
  full_name : Option String
  position : Option String
  team_changed_at : Option Int
deriving DecidableEq

/-- Sort key for `full_name` under pandas `ascending=True`,
`na_position="last"`: code-point lexicographic on the characters, with
missing names greatest. -/
def nameKey : Option String → WithTop (List Nat)
  | none => ⊤
  | some s => (s.data.map Char.toNat : List Nat)

/-- Sort key for `team_changed_at` under `ascending=False`,
`na_position="last"`: the row sorting earlier has the larger key, with
missing timestamps smallest. -/
def tsKey : Option Int → WithBot Int
  | none => ⊥
  | some t => (t : WithBot Int)

/-- The row order of
`sort_values(["full_name", "team_changed_at"], ascending=[True, False])`. -/
def rowLe (r s : PlayerRow) : Prop :=
  nameKey r.full_name < nameKey s.full_name ∨
    (nameKey r.full_name = nameKey s.full_name ∧
      tsKey s.team_changed_at ≤ tsKey r.team_changed_at)

instance : DecidableRel rowLe := fun _ _ =>
  inferInstanceAs (Decidable (_ ∨ _))

instance : IsTotal PlayerRow rowLe :=
  ⟨fun r s => by
    rcases lt_trichotomy (nameKey r.full_name) (nameKey s.full_name) with
      h | h | h
    · exact Or.inl (Or.inl h)
    · rcases le_total (tsKey s.team_changed_at) (tsKey r.team_changed_at) with
        h2 | h2
      · exact Or.inl (Or.inr ⟨h, h2⟩)
      · exact Or.inr (Or.inr ⟨h.symm, h2⟩)
    · exact Or.inr (Or.inl h)⟩

instance : IsTrans PlayerRow rowLe :=
  ⟨fun r s t hrs hst => by
    rcases hrs with h1 | ⟨h1, h1t⟩ <;> rcases hst with h2 | ⟨h2, h2t⟩
    · exact Or.inl (lt_trans h1 h2)
    · exact Or.inl (lt_of_lt_of_eq h1 h2)
    · exact Or.inl (lt_of_eq_of_lt h1 h2)
    · exact Or.inr ⟨h1.trans h2, le_trans h2t h1t⟩⟩

/-- The sort step of `clean_df` (line 117 of both pipeline scripts),
modelled with a deterministic comparison sort (pandas' default quicksort is
deterministic too; rows equal in both keys may be ordered differently, which
no theorem below depends on). -/
def sortRows (l : List PlayerRow) : List PlayerRow := List.insertionSort rowLe l

/-- Pandas `drop_duplicates(subset="full_name", keep="first")`: keep the first row
of each full-name group (missing names form one group, as in pandas);
`seen` is the set of names already kept. -/
def dedupAux : List (Option String) → List PlayerRow → List PlayerRow
  | _, [] => []
  | seen, r :: rest =>
    if r.full_name ∈ seen then dedupAux seen rest
    else r :: dedupAux (r.full_name :: seen) rest

/-- Lines 117-118 of `clean_df`: sort, then keep the first row per name. -/
def cleanDedup (l : List PlayerRow) : List PlayerRow := dedupAux [] (sortRows l)

/-- Line 121 of `clean_df`:
`full_name.apply(strip_suffix).str.lower().str.strip()`. -/
def cleanName (n : Option String) : String :=
  ⟨py_strip ((strip_suffix n).data.map Char.toLower)⟩

/-- A deduplicated roster row together with its derived clean name. -/
structure CleanRow where
  row : PlayerRow
  full_name_clean : String
deriving DecidableEq

/-- The function `clean_df` from `Ranked_List_Generator.py` / `main.py` lines 96-126,
row level: optionally drop `position == "DEF"` rows (`NaN` positions
compare unequal to `"DEF"` and are kept), sort by name and by most recent
team change, deduplicate on `full_name`, and derive `full_name_clean`.
(The column reordering of lines 98-109 is modelled separately by
`ordered_columns_main` / `ordered_columns_rlg`.) -/
def clean_df (df : List PlayerRow) (include_defenses : Bool) : List CleanRow :=
  let df_ordered := if include_defenses then df
    else df.filter fun r => !(r.position = some "DEF")
  (cleanDedup df_ordered).map fun r => ⟨r, cleanName r.full_name⟩


theorem dedupAux_subset : ∀ (seen : List (Option String))
    (l : List PlayerRow), ∀ r ∈ dedupAux seen l, r ∈ l := by
  intro seen l
  induction l generalizing seen with
  | nil => intro r hr; exact absurd hr (List.not_mem_nil r)
  | cons r0 rest ih =>
    intro r hr
    by_cases h0 : r0.full_name ∈ seen
    · rw [dedupAux, if_pos h0] at hr
      exact List.mem_cons_of_mem _ (ih seen r hr)
    · rw [dedupAux, if_neg h0] at hr
      rcases List.mem_cons.mp hr with h | h
      · exact h ▸ List.mem_cons_self _ _
      · exact List.mem_cons_of_mem _ (ih _ r h)

theorem dedupAux_find : ∀ (seen : List (Option String))
    (l : List PlayerRow), ∀ r ∈ dedupAux seen l,
    r.full_name ∉ seen ∧
      l.find? (fun x => decide (x.full_name = r.full_name)) = some r := by
  intro seen l
  induction l generalizing seen with
  | nil => intro r hr; exact absurd hr (List.not_mem_nil r)
  | cons r0 rest ih =>
    intro r hr
    by_cases h0 : r0.full_name ∈ seen
    · rw [dedupAux, if_pos h0] at hr
      obtain ⟨hns, hfind⟩ := ih seen r hr
      have hne : r0.full_name ≠ r.full_name := by
        intro he; exact hns (he ▸ h0)
      refine ⟨hns, ?_⟩
      rw [List.find?_cons_of_neg _ (by simpa using hne)]
      exact hfind
    · rw [dedupAux, if_neg h0] at hr
      rcases List.mem_cons.mp hr with h | h
      · subst h
        exact ⟨h0, List.find?_cons_of_pos _ (by simp)⟩
      · obtain ⟨hns, hfind⟩ := ih (r0.full_name :: seen) r h
        have hne : r0.full_name ≠ r.full_name := by
          intro he
          exact hns (he ▸ List.mem_cons_self _ _)
        refine ⟨fun hmem => hns (List.mem_cons_of_mem _ hmem), ?_⟩
        rw [List.find?_cons_of_neg _ (by simpa using hne)]
        exact hfind

theorem dedupAux_names_nodup : ∀ (seen : List (Option String))
    (l : List PlayerRow),
    ((dedupAux seen l).map PlayerRow.full_name).Nodup ∧
      ∀ n ∈ (dedupAux seen l).map PlayerRow.full_name, n ∉ seen := by
  intro seen l
  induction l generalizing seen with
  | nil => exact ⟨List.nodup_nil, by simp [dedupAux]⟩
  | cons r0 rest ih =>
    by_cases h0 : r0.full_name ∈ seen
    · rw [dedupAux, if_pos h0]
      exact ih seen
    · rw [dedupAux, if_neg h0]
      obtain ⟨hnd, hnin⟩ := ih (r0.full_name :: seen)
      constructor
      · rw [List.map_cons, List.nodup_cons]
        refine ⟨fun hmem => ?_, hnd⟩
        exact hnin _ hmem (List.mem_cons_self _ _)
      · intro n hn
        rw [List.map_cons, List.mem_cons] at hn
        rcases hn with h | h
        · exact h ▸ h0
        · exact fun hmem => hnin n h (List.mem_cons_of_mem _ hmem)

theorem dedupAux_mem_names : ∀ (seen : List (Option String))
    (l : List PlayerRow) (n : Option String), n ∉ seen →
    (n ∈ l.map PlayerRow.full_name ↔
      n ∈ (dedupAux seen l).map PlayerRow.full_name) := by
  intro seen l
  induction l generalizing seen with
  | nil => intro n _; simp [dedupAux]
  | cons r0 rest ih =>
    intro n hn
    by_cases h0 : r0.full_name ∈ seen
    · rw [dedupAux, if_pos h0]
      have hne : n ≠ r0.full_name := fun he => hn (he ▸ h0)
      rw [List.map_cons, List.mem_cons]
      constructor
      · intro h
        rcases h with h | h
        · exact absurd h hne
        · exact (ih seen n hn).mp h
      · intro h
        exact Or.inr ((ih seen n hn).mpr h)
    · rw [dedupAux, if_neg h0]
      rw [List.map_cons, List.mem_cons, List.map_cons, List.mem_cons]
      by_cases hne : n = r0.full_name
      · subst hne; simp
      · have hn' : n ∉ r0.full_name :: seen := by
          intro hmem
          rcases List.mem_cons.mp hmem with h | h
          · exact hne h
          · exact hn h
        constructor
        · intro h
          rcases h with h | h
          · exact absurd h hne
          · exact Or.inr ((ih _ n hn').mp h)
        · intro h
          rcases h with h | h
          · exact absurd h hne
          · exact Or.inr ((ih _ n hn').mpr h)

/-- C7: the sort-and-deduplicate step keeps exactly one row per full-name
group: kept names are duplicate-free, the set of names is preserved, every
kept row is an input row carrying the maximal `team_changed_at` of its group
under the order that puts missing timestamps below all present ones, and the
kept row is precisely the first row of its group in the sorted order (so the
result is a deterministic function of the input, stable across runs). -/
theorem C7_dedup_most_recent (l : List PlayerRow) :
    ((cleanDedup l).map PlayerRow.full_name).Nodup ∧
    (∀ n, n ∈ l.map PlayerRow.full_name ↔
      n ∈ (cleanDedup l).map PlayerRow.full_name) ∧
    (∀ r ∈ cleanDedup l, r ∈ l ∧
      ∀ r2 ∈ l, r2.full_name = r.full_name →
        tsKey r2.team_changed_at ≤ tsKey r.team_changed_at) ∧
    (∀ r ∈ cleanDedup l,
      (sortRows l).find? (fun x => decide (x.full_name = r.full_name))
        = some r) := by
  have hperm : (sortRows l).Perm l := List.perm_insertionSort rowLe l
  have hsorted : List.Pairwise rowLe (sortRows l) :=
    List.sorted_insertionSort rowLe l
  refine ⟨(dedupAux_names_nodup [] (sortRows l)).1, ?_, ?_, ?_⟩
  · intro n
    have h1 : n ∈ l.map PlayerRow.full_name ↔
        n ∈ (sortRows l).map PlayerRow.full_name :=
      ((hperm.map PlayerRow.full_name).mem_iff).symm
    exact h1.trans (dedupAux_mem_names [] (sortRows l) n (by simp))
  · intro r hr
    have hrs : r ∈ sortRows l := dedupAux_subset [] (sortRows l) r hr
    refine ⟨hperm.mem_iff.mp hrs, ?_⟩
    intro r2 hr2 hname
    have hfind := (dedupAux_find [] (sortRows l) r hr).2
    obtain ⟨-, as, bs, hdec, hpre⟩ := List.find?_eq_some.mp hfind
    have hr2s : r2 ∈ sortRows l := hperm.mem_iff.mpr hr2
    rw [hdec] at hr2s
    rcases List.mem_append.mp hr2s with h | h
    · exfalso
      have := hpre r2 h
      simp only [Bool.not_eq_true', decide_eq_false_iff_not] at this
      exact this hname
    · rcases List.mem_cons.mp h with h | h
      · subst h; exact le_refl _
      · have hple : rowLe r r2 := by
          rw [hdec] at hsorted
          have := (List.pairwise_append.mp hsorted).2.1
          exact (List.pairwise_cons.mp this).1 r2 h
        rcases hple with hlt | ⟨-, hts⟩
        · exfalso
          rw [show nameKey r2.full_name = nameKey r.full_name from
            congrArg nameKey hname] at hlt
          exact absurd hlt (lt_irrefl _)
        · exact hts
  · intro r hr
    exact (dedupAux_find [] (sortRows l) r hr).2

/-- Witness for C7: on a two-row group the kept row is the one with the
later timestamp, and the other row's timestamp is bounded by it. -/
theorem C7_dedup_most_recent_witness :
    tsKey (some 100) ≤ tsKey (some 200) :=
  ((C7_dedup_most_recent
      [⟨1, some "Alpha", some "RB", some 100⟩,
       ⟨2, some "Alpha", some "RB", some 200⟩]).2.2.1
    ⟨2, some "Alpha", some "RB", some 200⟩ (by decide)).2
    ⟨1, some "Alpha", some "RB", some 100⟩ (by decide) (by decide)

/-- C10: deduplication is keyed on the raw full name, not the clean name:
after `clean_df` full names are always duplicate-free, yet on the concrete
roster holding both `Travis Etienne Jr.` and `Travis Etienne` both rows
survive and share the clean name `"travis etienne"`. -/
theorem C10_dedup_keyed_on_raw_name :
    (∀ (df : List PlayerRow) (b : Bool),
      ((clean_df df b).map fun c => c.row.full_name).Nodup) ∧
    ((clean_df
        [⟨1, some "Travis Etienne Jr.", some "RB", some 100⟩,
         ⟨2, some "Travis Etienne", some "RB", some 200⟩] true).map
      fun c => c.full_name_clean) = ["travis etienne", "travis etienne"] ∧
    ¬ (((clean_df
        [⟨1, some "Travis Etienne Jr.", some "RB", some 100⟩,
         ⟨2, some "Travis Etienne", some "RB", some 200⟩] true).map
      fun c => c.full_name_clean).Nodup) := by
  refine ⟨?_, by decide, by decide⟩
  intro df b
  unfold clean_df cleanDedup
  simp only [List.map_map]
  exact (dedupAux_names_nodup [] _).1

/-- One row of the FantasyPros rankings table: its `PLAYER NAME` cell and
`rk` standing for the remaining rankings columns. -/
structure RankRow where
  rk : Nat
  player_name : Option String
deriving DecidableEq

/-- The function `join_to_get_ranked_order` from the pipeline scripts (lines 131-152):
normalize each rankings name, fuzzy-match it against the clean roster names,
and left-join on the matched name: each rankings row produces one output row
per roster row whose clean name equals its match, or a single row with
missing roster attributes (`none`) when there is no match.  The clean roster
names are strings (never `NaN`), so a `NaN` match key joins nothing, as in
pandas. -/
def join_to_get_ranked_order (df_left : List RankRow)
    (df_right : List CleanRow) : List (RankRow × Option CleanRow) :=
  let choices := df_right.map fun r => r.full_name_clean
  df_left.flatMap fun l =>
    match fuzzy_match_names (cleanName l.player_name) choices with
    | none => [(l, none)]
    | some m =>
      let hits := df_right.filter fun r => r.full_name_clean = m
      if hits.isEmpty then [(l, none)] else hits.map fun r => (l, some r)


/-- Counterexample to C3 as stated: with the deduplicated roster produced by
`clean_df` from `Travis Etienne Jr.` and `Travis Etienne` (both survive
deduplication and share the clean name `"travis etienne"`), the rankings row
`Travis Etienne Jr.` joins both roster rows, so the output restricted to the
rankings columns holds that rankings row twice. -/
theorem C3_counterexample_duplicate_left_rows :
    ¬ ((join_to_get_ranked_order [⟨1, some "Travis Etienne Jr."⟩]
          (clean_df
            [⟨1, some "Travis Etienne Jr.", some "RB", some 100⟩,
             ⟨2, some "Travis Etienne", some "RB", some 200⟩] false)).map
        Prod.fst
      = [⟨1, some "Travis Etienne Jr."⟩]) := by
  decide

theorem fuzzy_some_mem {q : String} {choices : List String} {cut : Nat}
    {c : String} (h : fuzzy_match_names q choices cut = some c) :
    c ∈ choices := by
  rcases hx : extractBest q cut choices with _ | ⟨⟨c1, l1, d1⟩⟩
  · rw [fuzzy_match_names, hx] at h; exact absurd h (by simp)
  · rw [fuzzy_match_names, hx] at h
    simp only [Option.map_some', Option.some.injEq] at h
    exact h ▸ (extractBest_some_spec hx).1

theorem filter_clean_singleton {l : List CleanRow} {m : String}
    (hnd : (l.map fun r => r.full_name_clean).Nodup)
    (hm : m ∈ l.map fun r => r.full_name_clean) :
    ∃ r, l.filter (fun r => decide (r.full_name_clean = m)) = [r] := by
  induction l with
  | nil => exact absurd hm (by simp)
  | cons r0 rest ih =>
    rw [List.map_cons, List.nodup_cons] at hnd
    rw [List.map_cons, List.mem_cons] at hm
    rcases hm with hm | hm
    · refine ⟨r0, ?_⟩
      rw [List.filter_cons_of_pos (by simpa using hm.symm)]
      have hnil : rest.filter (fun r => decide (r.full_name_clean = m))
          = [] := by
        rw [List.filter_eq_nil_iff]
        intro a ha
        simp only [decide_eq_true_eq]
        intro he
        exact hnd.1 ((he.trans hm) ▸ List.mem_map_of_mem _ ha)
      rw [hnil]
    · have hne : r0.full_name_clean ≠ m := by
        intro he
        exact hnd.1 (he ▸ hm)
      obtain ⟨r, hr⟩ := ih hnd.2 hm
      refine ⟨r, ?_⟩
      rw [List.filter_cons_of_neg (by simpa using hne), hr]

/-- C3 (amended): when the deduplicated roster table's clean names are
pairwise distinct, the merged output restricted to the rankings columns is
exactly the input rankings table — no rankings row dropped or duplicated —
and every unmatched rankings row appears with all-missing roster attributes.
(The counterexample shows the restriction is necessary: `clean_df`
deduplicates on the raw full name, so duplicate clean names can reach the
join and duplicate rankings rows.) -/
theorem C3_join_roundtrip_amended (df_left : List RankRow)
    (df_right : List CleanRow)
    (hnd : (df_right.map fun r => r.full_name_clean).Nodup) :
    ((join_to_get_ranked_order df_left df_right).map Prod.fst) = df_left ∧
    (∀ l ∈ df_left,
      fuzzy_match_names (cleanName l.player_name)
        (df_right.map fun r => r.full_name_clean) = none →
      (l, (none : Option CleanRow)) ∈
        join_to_get_ranked_order df_left df_right) := by
  constructor
  · induction df_left with
    | nil => rfl
    | cons l rest ih =>
      unfold join_to_get_ranked_order at *
      rw [List.flatMap_cons, List.map_append, ih]
      rcases hf : fuzzy_match_names (cleanName l.player_name)
          (df_right.map fun r => r.full_name_clean) with _ | m
      · simp [hf]
      · obtain ⟨r, hr⟩ := filter_clean_singleton hnd (fuzzy_some_mem hf)
        simp [hf, hr]
  · intro l hl hf
    unfold join_to_get_ranked_order
    rw [List.mem_flatMap]
    refine ⟨l, hl, ?_⟩
    simp [hf]

/-- Witness for C3 (amended) on a one-row rankings table and a one-row
deduplicated roster. -/
theorem C3_join_roundtrip_amended_witness :
    ((join_to_get_ranked_order [⟨1, some "Patrick Mahomes"⟩]
        (clean_df [⟨1, some "Patrick Mahomes", some "QB", some 100⟩]
          false)).map Prod.fst) = [⟨1, some "Patrick Mahomes"⟩] :=
  (C3_join_roundtrip_amended [⟨1, some "Patrick Mahomes"⟩]
    (clean_df [⟨1, some "Patrick Mahomes", some "QB", some 100⟩] false)
    (by decide)).1

/-- The list `main_columns` from `clean_df` (lines 98-106 of both pipeline
scripts): the canonical column schema. -/
def main_columns : List String :=
  ["player_id", "full_name", "first_name", "last_name", "position",
   "team", "team_abbr", "fantasy_positions", "active", "status",
   "age", "height", "weight", "college", "years_exp",
   "injury_status", "injury_notes", "injury_body_part",
   "practice_description", "practice_participation",
   "birth_city", "birth_state", "birth_country", "birth_date",
   "team_changed_at"]

/-- Line 108 of both scripts:
`final_columns = main_columns + [col for col in df.columns if col not in
main_columns]`. -/
def final_columns_of (cols : List String) : List String :=
  main_columns ++ cols.filter fun c => !(main_columns.contains c)

/-- From `main.py` line 109, `df_ordered = df[final_columns].copy()` — the output
columns of the clean step in `main.py`. -/
def ordered_columns_main (cols : List String) : List String :=
  final_columns_of cols

/-- From `Ranked_List_Generator.py` line 109, `df_ordered = df[main_columns]
.copy()` — the computed `final_columns` is never used, so the output columns
are always exactly `main_columns` and every extra source column is
dropped. -/
def ordered_columns_rlg (_cols : List String) : List String :=
  main_columns

/-- C8, settled at the failing input `main_columns ++ ["hashtag"]` (a roster
table carrying one extra source column): `main.py`'s clean step appends the
extra column at the end as the claim states, but `Ranked_List_Generator.py`'s
clean step — the variant that produces `output.csv` — selects
`df[main_columns]` (its computed `final_columns` is dead code) and drops the
extra column. -/
theorem C8_column_order_divergence :
    ordered_columns_main (main_columns ++ ["hashtag"])
      = main_columns ++ ["hashtag"] ∧
    "hashtag" ∈ ordered_columns_main (main_columns ++ ["hashtag"]) ∧
    ordered_columns_rlg (main_columns ++ ["hashtag"]) = main_columns ∧
    ¬ "hashtag" ∈ ordered_columns_rlg (main_columns ++ ["hashtag"]) := by
  refine ⟨?_, by decide, rfl, by decide⟩
  decide

/-- The file system and clock state read and written by
`get_updated_player_data`: the cached roster snapshot (`nfl_players.csv`),
the date stamp (`last_retrieval.txt`), with `none` for a missing file. -/
structure FetchFiles where
  csv_file : Option (List PlayerRow)
  date_file : Option String
deriving DecidableEq

/-- The environment of one `get_updated_player_data` call: the files on
disk, today's date string, and the upstream HTTP response (status code and
flattened player payload). -/
structure FetchEnv where
  files : FetchFiles
  today : String
  api_status : Nat
  api_players : List PlayerRow
deriving DecidableEq

/-- The fetch branch of `get_updated_player_data` (lines 73-91): one request,
no retry; a non-200 status raises before anything is written; on success the
snapshot and then the date stamp are written. -/
def fetchFresh (env : FetchEnv) :
    Except String (List PlayerRow) × FetchFiles :=
  if env.api_status ≠ 200 then
    (Except.error "API request failed", env.files)
  else
    (Except.ok env.api_players,
      ⟨some env.api_players, some env.today⟩)

/-- The function `get_updated_player_data` (lines 63-91 of both pipeline scripts) over an
explicit environment: when both cache files exist and the stripped date
stamp equals today's date, return the cached table and leave the files
alone; otherwise fetch.  The second component is the resulting file
state. -/
def get_updated_player_data (env : FetchEnv) :
    Except String (List PlayerRow) × FetchFiles :=
  match env.files.csv_file, env.files.date_file with
  | some cached, some d =>
    if pyStripS d = env.today then (Except.ok cached, env.files)
    else fetchFresh env
  | _, _ => fetchFresh env

/-- No valid same-day cache: it is not the case that both files exist and
the stripped date stamp equals today. -/
def cacheValid (env : FetchEnv) : Prop :=
  ∃ cached d, env.files.csv_file = some cached ∧
    env.files.date_file = some d ∧ pyStripS d = env.today

/-- C9: when no valid same-day cache exists and the upstream fetch returns a
non-success status, the step returns the error (one request, no stale
fallback, no retry) and the file state is exactly the input file state:
neither the roster snapshot nor the date stamp is written. -/
theorem C9_fetch_error_no_partial_write (env : FetchEnv)
    (hcache : ¬ cacheValid env) (hstatus : env.api_status ≠ 200) :
    (get_updated_player_data env).1 = Except.error "API request failed" ∧
    (get_updated_player_data env).2 = env.files := by
  have hfresh : fetchFresh env
      = (Except.error "API request failed", env.files) := by
    rw [fetchFresh, if_pos hstatus]
  have hres : get_updated_player_data env
      = (Except.error "API request failed", env.files) := by
    unfold get_updated_player_data
    rcases hcsv : env.files.csv_file with _ | cached <;>
      rcases hdate : env.files.date_file with _ | d <;>
      simp only [hcsv, hdate, hfresh]
    have hne : ¬ pyStripS d = env.today := fun he =>
      hcache ⟨cached, d, hcsv, hdate, he⟩
    rw [if_neg hne]
  rw [hres]
  exact ⟨rfl, rfl⟩

/-- Witness for C9: missing cache files and a 500 response. -/
theorem C9_fetch_error_no_partial_write_witness :
    (get_updated_player_data ⟨⟨none, none⟩, "2025-08-01", 500, []⟩).1
        = Except.error "API request failed" ∧
    (get_updated_player_data ⟨⟨none, none⟩, "2025-08-01", 500, []⟩).2
        = ⟨none, none⟩ :=
  C9_fetch_error_no_partial_write ⟨⟨none, none⟩, "2025-08-01", 500, []⟩
    (by simp [cacheValid]) (by decide)
